import Mathlib

/-!
Verification of the chunk-resolution and integrity engine of rbackup2-poc
(`src/libs/rdedup/lib/src/reading.rs`): the `IndexTranslator` byte-stream
re-chunker, the `ReadContext` recursive resolver, and the `ChunkAccessor`
variants. Bytes are modelled as `Nat`, byte strings as `List Nat`, fallible
operations as `Except`, and the (potentially deep) mutual recursion of
`ReadContext::read_recursively` / `IndexTranslator::write` as a fuel-indexed
step function (`none` = fuel exhausted; every theorem quantifies over
sufficient fuel, and fuel-monotonicity is proved).
-/

set_option autoImplicit false

namespace RBackup

/-- Modelled from the spec: "fixed-size digest records (32 bytes each)" (§4.3,
§3).  The constant `DIGEST_SIZE` itself lives in rdedup's `lib.rs`, which is
not part of this repository snapshot; `reading.rs` only imports it. -/
def DIGEST_SIZE : Nat := 32

/-- Modelled from the spec: "DataType: `{Index, Data}`" (§3).  Defined in
rdedup's `lib.rs`, not in this snapshot. -/
inductive DataType where
  | data
  | index
deriving DecidableEq, Repr

/-- The `io::ErrorKind` values the core distinguishes (`NotFound`,
`InvalidData`, anything else). -/
inductive ErrorKind where
  | notFound
  | invalidData
  | other
deriving DecidableEq, Repr

/-- An `io::Error`: a kind plus a message. -/
structure IoError where
  kind : ErrorKind
  msg : String
deriving DecidableEq, Repr

instance {ε α : Type} [DecidableEq ε] [DecidableEq α] :
    DecidableEq (Except ε α)
  | .error a, .error b =>
    if h : a = b then isTrue (by rw [h])
    else isFalse (fun hc => h (Except.error.inj hc))
  | .error _, .ok _ => isFalse (fun hc => Except.noConfusion hc)
  | .ok _, .error _ => isFalse (fun hc => Except.noConfusion hc)
  | .ok a, .ok b =>
    if h : a = b then isTrue (by rw [h])
    else isFalse (fun hc => h (Except.ok.inj hc))

/-- Lower-case hex digit, as produced by `hex::encode`. -/
def hexDigit (n : Nat) : Char :=
  if n < 10 then Char.ofNat (48 + n) else Char.ofNat (87 + n)

/-- Hex encoding of one byte (two lower-case hex digits). -/
def hexByte (b : Nat) : String :=
  String.mk [hexDigit (b / 16 % 16), hexDigit (b % 16)]

/-- `hex::encode` over a byte string. -/
def hexEncode (bs : List Nat) : String :=
  String.join (bs.map hexByte)

/-! ## The `IndexTranslator::write` loop (reading.rs lines 50–109)

`IndexTranslator::write` consumes one incoming slice, completing 32-byte
digest records out of the partial buffer plus the slice; for every completed
record it immediately calls `read_recursively` (modelled here by the abstract
callback `emit`, which can fail) and continues with the rest of the slice.
Each loop iteration consumes `needs = DIGEST_SIZE - buf.length ≥ 1` input
bytes (the buffer invariant keeps `buf.length < DIGEST_SIZE`), so
`bytes.length + 1` iterations always suffice; the fuel argument makes the
recursion structural, and `none` (fuel exhausted) never occurs at the fuel
the wrappers below supply. -/

def itLoopF (emit : List Nat → Except IoError Unit) :
    Nat → List Nat → List Nat → Option (Except IoError (List Nat × List (List Nat)))
  | 0, _, _ => none
  | fuel + 1, buf, bytes =>
    if buf.length + bytes.length < DIGEST_SIZE then
      -- append to the buffer and report the whole slice consumed
      some (.ok (buf ++ bytes, []))
    else
      let needs := DIGEST_SIZE - buf.length
      if buf.isEmpty then
        -- slice the next DIGEST_SIZE bytes directly out of the incoming data
        let digest := bytes.take needs
        match emit digest with
        | .error e => some (.error e)
        | .ok _ =>
          (itLoopF emit fuel [] (bytes.drop needs)).map fun r =>
            r.map fun p => (p.1, digest :: p.2)
      else
        -- complete the buffer with a prefix of the incoming data, then clear it
        let full := buf ++ bytes.take needs
        match emit full with
        | .error e => some (.error e)
        | .ok _ =>
          (itLoopF emit fuel [] (bytes.drop needs)).map fun r =>
            r.map fun p => (p.1, full :: p.2)

/-- One call to `IndexTranslator::write`: the source captures
`total_len = bytes.len()` before the loop and returns `Ok(total_len)` on
success.  The result also carries the final partial buffer and the records
emitted during the call, in order. -/
def itWrite (emit : List Nat → Except IoError Unit) (buf bytes : List Nat) :
    Option (Except IoError (Nat × List Nat × List (List Nat))) :=
  (itLoopF emit (bytes.length + 1) buf bytes).map fun r =>
    r.map fun p => (bytes.length, p.1, p.2)

/-- The always-succeeding emission callback (all nested reads succeed). -/
def okEmit : List Nat → Except IoError Unit := fun _ => .ok ()

/-- The success-path behaviour of one `IndexTranslator::write` call: final
partial buffer and emitted records.  The fallback branch is unreachable:
with `okEmit` and fuel `bytes.length + 1` the loop always yields a value
(`itLoopF_okEmit_eq`). -/
def itRun (buf bytes : List Nat) : List Nat × List (List Nat) :=
  match itLoopF okEmit (bytes.length + 1) buf bytes with
  | some (.ok r) => r
  | _ => (buf ++ bytes, [])

/-! ## Ground truth: consecutive 32-byte records of a byte string -/

/-- Fuel-indexed splitting of a byte string into its consecutive full
`DIGEST_SIZE`-byte records; `s.length` iterations always suffice. -/
def chunksF : Nat → List Nat → List (List Nat)
  | 0, _ => []
  | fuel + 1, s =>
    if DIGEST_SIZE ≤ s.length then
      s.take DIGEST_SIZE :: chunksF fuel (s.drop DIGEST_SIZE)
    else []

/-- The consecutive full `DIGEST_SIZE`-byte records of a byte string. -/
def fullChunks (s : List Nat) : List (List Nat) := chunksF s.length s

/-- Fuel-indexed remainder after removing all full records. -/
def remF : Nat → List Nat → List Nat
  | 0, s => s
  | fuel + 1, s =>
    if DIGEST_SIZE ≤ s.length then remF fuel (s.drop DIGEST_SIZE) else s

/-- The remainder of a byte string after removing all full
`DIGEST_SIZE`-byte records (its length is `s.length % DIGEST_SIZE`). -/
def chunkRem (s : List Nat) : List Nat := remF s.length s

theorem chunksF_congr :
    ∀ (f g : Nat) (s : List Nat), s.length ≤ f → s.length ≤ g →
      chunksF f s = chunksF g s := by
  intro f
  induction f with
  | zero =>
    intro g s hf _
    interval_cases h : s.length
    · have hs : s = [] := List.length_eq_zero.1 h
      subst hs
      cases g with
      | zero => rfl
      | succ g => simp [chunksF, DIGEST_SIZE]
  | succ f ih =>
    intro g s hf hg
    cases g with
    | zero =>
      have hs : s = [] := List.length_eq_zero.1 (Nat.le_zero.1 hg)
      subst hs
      simp [chunksF, DIGEST_SIZE]
    | succ g =>
      simp only [chunksF]
      by_cases hd : DIGEST_SIZE ≤ s.length
      · simp only [if_pos hd]
        have hlen : (s.drop DIGEST_SIZE).length = s.length - DIGEST_SIZE := by
          simp
        have h32 : 0 < DIGEST_SIZE := by decide
        have hf' : (s.drop DIGEST_SIZE).length ≤ f := by omega
        have hg' : (s.drop DIGEST_SIZE).length ≤ g := by omega
        rw [ih g _ hf' hg']
      · simp [if_neg hd]

theorem remF_congr :
    ∀ (f g : Nat) (s : List Nat), s.length ≤ f → s.length ≤ g →
      remF f s = remF g s := by
  intro f
  induction f with
  | zero =>
    intro g s hf _
    have hs : s = [] := List.length_eq_zero.1 (Nat.le_zero.1 hf)
    subst hs
    cases g with
    | zero => rfl
    | succ g => simp [remF, DIGEST_SIZE]
  | succ f ih =>
    intro g s hf hg
    cases g with
    | zero =>
      have hs : s = [] := List.length_eq_zero.1 (Nat.le_zero.1 hg)
      subst hs
      simp [remF, DIGEST_SIZE]
    | succ g =>
      simp only [remF]
      by_cases hd : DIGEST_SIZE ≤ s.length
      · simp only [if_pos hd]
        have hlen : (s.drop DIGEST_SIZE).length = s.length - DIGEST_SIZE := by
          simp
        have h32 : 0 < DIGEST_SIZE := by decide
        have hf' : (s.drop DIGEST_SIZE).length ≤ f := by omega
        have hg' : (s.drop DIGEST_SIZE).length ≤ g := by omega
        rw [ih g _ hf' hg']
      · simp [if_neg hd]

theorem fullChunks_short {s : List Nat} (h : s.length < DIGEST_SIZE) :
    fullChunks s = [] := by
  unfold fullChunks
  cases hl : s.length with
  | zero => rfl
  | succ n =>
    simp only [chunksF]
    rw [if_neg]
    omega

theorem chunkRem_short {s : List Nat} (h : s.length < DIGEST_SIZE) :
    chunkRem s = s := by
  unfold chunkRem
  cases hl : s.length with
  | zero => rfl
  | succ n =>
    simp only [remF]
    rw [if_neg]
    omega

theorem fullChunks_step {s : List Nat} (h : DIGEST_SIZE ≤ s.length) :
    fullChunks s = s.take DIGEST_SIZE :: fullChunks (s.drop DIGEST_SIZE) := by
  unfold fullChunks
  have h32 : 0 < DIGEST_SIZE := by decide
  cases hl : s.length with
  | zero => omega
  | succ n =>
    simp only [chunksF]
    rw [if_pos (by omega)]
    congr 1
    apply chunksF_congr
    · simp
      omega
    · simp

theorem chunkRem_step {s : List Nat} (h : DIGEST_SIZE ≤ s.length) :
    chunkRem s = chunkRem (s.drop DIGEST_SIZE) := by
  unfold chunkRem
  have h32 : 0 < DIGEST_SIZE := by decide
  cases hl : s.length with
  | zero => omega
  | succ n =>
    simp only [remF]
    rw [if_pos (by omega)]
    apply remF_congr
    · simp
      omega
    · simp

theorem chunkRem_length (s : List Nat) :
    (chunkRem s).length = s.length % DIGEST_SIZE := by
  suffices H : ∀ (n : Nat) (s : List Nat), s.length = n →
      (chunkRem s).length = s.length % DIGEST_SIZE from H s.length s rfl
  intro n
  induction n using Nat.strong_induction_on with
  | _ n ih =>
    intro s hn
    by_cases h : DIGEST_SIZE ≤ s.length
    · rw [chunkRem_step h]
      have h32 : 0 < DIGEST_SIZE := by decide
      have hlen : (s.drop DIGEST_SIZE).length = s.length - DIGEST_SIZE := by simp
      rw [ih (s.drop DIGEST_SIZE).length (by omega) _ rfl, hlen,
        Nat.mod_eq_sub_mod h]
    · rw [chunkRem_short (by omega), Nat.mod_eq_of_lt (by omega)]

theorem chunkRem_lt (s : List Nat) : (chunkRem s).length < DIGEST_SIZE := by
  rw [chunkRem_length]
  exact Nat.mod_lt _ (by decide)

theorem flatten_fullChunks (s : List Nat) :
    (fullChunks s).flatten ++ chunkRem s = s := by
  suffices H : ∀ (n : Nat) (s : List Nat), s.length = n →
      (fullChunks s).flatten ++ chunkRem s = s from H s.length s rfl
  intro n
  induction n using Nat.strong_induction_on with
  | _ n ih =>
    intro s hn
    by_cases h : DIGEST_SIZE ≤ s.length
    · rw [fullChunks_step h, chunkRem_step h]
      have h32 : 0 < DIGEST_SIZE := by decide
      have hlen : (s.drop DIGEST_SIZE).length = s.length - DIGEST_SIZE := by simp
      have hrec := ih (s.drop DIGEST_SIZE).length (by omega) (s.drop DIGEST_SIZE) rfl
      simp only [List.flatten_cons, List.append_assoc, hrec]
      exact List.take_append_drop _ s
    · rw [fullChunks_short (by omega), chunkRem_short (by omega)]
      rfl

theorem fullChunks_length_mem {s c : List Nat} (hc : c ∈ fullChunks s) :
    c.length = DIGEST_SIZE := by
  suffices H : ∀ (n : Nat) (s : List Nat), s.length = n →
      ∀ c, c ∈ fullChunks s → c.length = DIGEST_SIZE from H s.length s rfl c hc
  intro n
  induction n using Nat.strong_induction_on with
  | _ n ih =>
    intro s hn c hc
    by_cases h : DIGEST_SIZE ≤ s.length
    · rw [fullChunks_step h] at hc
      rcases List.mem_cons.1 hc with hc | hc
      · subst hc
        exact List.length_take_of_le h
      · have h32 : 0 < DIGEST_SIZE := by decide
        have hlen : (s.drop DIGEST_SIZE).length = s.length - DIGEST_SIZE := by
          simp
        exact ih (s.drop DIGEST_SIZE).length (by omega) _ rfl c hc
    · rw [fullChunks_short (by omega)] at hc
      cases hc

theorem fullChunks_append_assoc (x y : List Nat) :
    fullChunks (x ++ y) = fullChunks x ++ fullChunks (chunkRem x ++ y) ∧
      chunkRem (x ++ y) = chunkRem (chunkRem x ++ y) := by
  suffices H : ∀ (n : Nat) (x : List Nat), x.length = n →
      fullChunks (x ++ y) = fullChunks x ++ fullChunks (chunkRem x ++ y) ∧
        chunkRem (x ++ y) = chunkRem (chunkRem x ++ y) from H x.length x rfl
  intro n
  induction n using Nat.strong_induction_on with
  | _ n ih =>
    intro x hn
    by_cases h : DIGEST_SIZE ≤ x.length
    · have hxy : DIGEST_SIZE ≤ (x ++ y).length := by
        simp only [List.length_append]; omega
      have htake : (x ++ y).take DIGEST_SIZE = x.take DIGEST_SIZE :=
        List.take_append_of_le_length h
      have hdrop : (x ++ y).drop DIGEST_SIZE = x.drop DIGEST_SIZE ++ y :=
        List.drop_append_of_le_length h
      have h32 : 0 < DIGEST_SIZE := by decide
      have hlen : (x.drop DIGEST_SIZE).length = x.length - DIGEST_SIZE := by simp
      have hih := ih (x.drop DIGEST_SIZE).length (by omega) (x.drop DIGEST_SIZE) rfl
      constructor
      · rw [fullChunks_step hxy, htake, hdrop, hih.1, fullChunks_step h,
          chunkRem_step h]
        simp
      · rw [chunkRem_step hxy, hdrop, hih.2, chunkRem_step h]
    · rw [fullChunks_short (s := x) (by omega), chunkRem_short (s := x) (by omega)]
      simp

/-! ## Behaviour of the write loop on the success path -/

theorem itLoopF_okEmit_eq :
    ∀ (fuel : Nat) (buf bytes : List Nat), buf.length < DIGEST_SIZE →
      bytes.length < fuel →
      itLoopF okEmit fuel buf bytes =
        some (.ok (chunkRem (buf ++ bytes), fullChunks (buf ++ bytes))) := by
  intro fuel
  induction fuel with
  | zero => intro _ _ _ h; omega
  | succ fuel ih =>
    intro buf bytes hbuf hfuel
    rw [itLoopF]
    by_cases hshort : buf.length + bytes.length < DIGEST_SIZE
    · rw [if_pos hshort]
      rw [chunkRem_short (by simp; omega), fullChunks_short (by simp; omega)]
    · rw [if_neg hshort]
      have h32 : 0 < DIGEST_SIZE := by decide
      have hbl : DIGEST_SIZE - buf.length ≤ bytes.length := by omega
      have happlen : DIGEST_SIZE ≤ (buf ++ bytes).length := by simp; omega
      by_cases hempty : buf.isEmpty
      · have hb : buf = [] := by
          cases buf with
          | nil => rfl
          | cons a l => simp [List.isEmpty] at hempty
        subst hb
        simp only [List.length_nil, Nat.sub_zero, List.nil_append]
          at hshort hbl happlen ⊢
        have hdl : (bytes.drop DIGEST_SIZE).length =
            bytes.length - DIGEST_SIZE := by simp
        have hrec := ih [] (bytes.drop DIGEST_SIZE) (by decide) (by omega)
        simp only [List.isEmpty_nil, if_true, List.length_nil, Nat.sub_zero,
          okEmit]
        rw [hrec, fullChunks_step (s := bytes) (by omega),
          chunkRem_step (s := bytes) (by omega)]
        rfl
      · have hbne : ¬ (buf.isEmpty = true) := hempty
        simp only [if_neg hbne, okEmit]
        have heq : DIGEST_SIZE = buf.length + (DIGEST_SIZE - buf.length) := by
          omega
        have h2 : buf.length + (DIGEST_SIZE - buf.length) - buf.length =
            DIGEST_SIZE - buf.length := by omega
        have htake : buf ++ bytes.take (DIGEST_SIZE - buf.length) =
            (buf ++ bytes).take DIGEST_SIZE := by
          rw [heq, List.take_append, h2]
        have hdrop : bytes.drop (DIGEST_SIZE - buf.length) =
            (buf ++ bytes).drop DIGEST_SIZE := by
          rw [heq, List.drop_append, h2]
        have hdl : (bytes.drop (DIGEST_SIZE - buf.length)).length =
            bytes.length - (DIGEST_SIZE - buf.length) := by simp
        have hrec := ih [] (bytes.drop (DIGEST_SIZE - buf.length))
          (by decide) (by omega)
        rw [hrec]
        simp only [List.nil_append]
        rw [htake, hdrop, fullChunks_step (s := buf ++ bytes) happlen,
          chunkRem_step (s := buf ++ bytes) happlen]
        rfl

theorem itRun_eq {buf bytes : List Nat} (hbuf : buf.length < DIGEST_SIZE) :
    itRun buf bytes = (chunkRem (buf ++ bytes), fullChunks (buf ++ bytes)) := by
  unfold itRun
  rw [itLoopF_okEmit_eq (bytes.length + 1) buf bytes hbuf (by omega)]

/-- Feeding a sequence of slices through consecutive `IndexTranslator::write`
calls, threading the partial buffer and accumulating emitted records. -/
def feedWrites : List Nat × List (List Nat) → List (List Nat) →
    List Nat × List (List Nat)
  | st, [] => st
  | (buf, recs), s :: rest =>
    let r := itRun buf s
    feedWrites (r.1, recs ++ r.2) rest

theorem feedWrites_eq :
    ∀ (slices : List (List Nat)) (buf : List Nat) (recs : List (List Nat)),
      buf.length < DIGEST_SIZE →
      feedWrites (buf, recs) slices =
        (chunkRem (buf ++ slices.flatten),
          recs ++ fullChunks (buf ++ slices.flatten)) := by
  intro slices
  induction slices with
  | nil =>
    intro buf recs hbuf
    simp [feedWrites, chunkRem_short hbuf, fullChunks_short hbuf]
  | cons s rest ih =>
    intro buf recs hbuf
    simp only [feedWrites, itRun_eq hbuf]
    rw [ih _ _ (chunkRem_lt _)]
    have hassoc := fullChunks_append_assoc (buf ++ s) rest.flatten
    simp only [List.flatten_cons, ← List.append_assoc]
    rw [hassoc.1, hassoc.2]
    simp [List.append_assoc]

/-- Conservation: whenever one `IndexTranslator::write` loop succeeds (with
any emission callback, i.e. regardless of what the nested reads did), the
input bytes are exactly partitioned into the emitted records followed by the
retained partial buffer. -/
theorem itLoopF_flatten :
    ∀ (emit : List Nat → Except IoError Unit) (fuel : Nat)
      (buf bytes buf' : List Nat) (recs : List (List Nat)),
      itLoopF emit fuel buf bytes = some (.ok (buf', recs)) →
      recs.flatten ++ buf' = buf ++ bytes := by
  intro emit fuel
  induction fuel with
  | zero =>
    intro buf bytes buf' recs h
    simp [itLoopF] at h
  | succ fuel ih =>
    intro buf bytes buf' recs h
    rw [itLoopF] at h
    by_cases hshort : buf.length + bytes.length < DIGEST_SIZE
    · rw [if_pos hshort] at h
      simp only [Option.some.injEq, Except.ok.injEq, Prod.mk.injEq] at h
      rw [← h.1, ← h.2]
      simp
    · rw [if_neg hshort] at h
      by_cases hempty : buf.isEmpty
      · have hb : buf = [] := by
          cases buf with
          | nil => rfl
          | cons a l => simp [List.isEmpty] at hempty
        subst hb
        rw [if_pos hempty] at h
        simp only [List.length_nil, Nat.sub_zero, List.nil_append] at h ⊢
        cases hemit : emit (bytes.take DIGEST_SIZE) with
        | error e => simp [hemit] at h
        | ok u =>
          simp only [hemit] at h
          cases hrec : itLoopF emit fuel [] (bytes.drop DIGEST_SIZE) with
          | none => rw [hrec] at h; simp at h
          | some r =>
            rw [hrec] at h
            cases r with
            | error e => simp [Except.map] at h
            | ok p =>
              have h' : (some (Except.ok (p.1, bytes.take DIGEST_SIZE :: p.2)) :
                  Option (Except IoError (List Nat × List (List Nat)))) =
                  some (.ok (buf', recs)) := h
              have h2 := Except.ok.inj (Option.some.inj h')
              injection h2 with hb hr
              subst hb
              subst hr
              have hcons := ih [] (bytes.drop DIGEST_SIZE) p.1 p.2 (by rw [hrec])
              simp only [List.flatten_cons, List.append_assoc]
              rw [hcons]
              simp [List.take_append_drop]
      · rw [if_neg hempty] at h
        cases hemit : emit (buf ++ bytes.take (DIGEST_SIZE - buf.length)) with
        | error e => simp [hemit] at h
        | ok u =>
          simp only [hemit] at h
          cases hrec : itLoopF emit fuel [] (bytes.drop (DIGEST_SIZE - buf.length)) with
          | none => rw [hrec] at h; simp at h
          | some r =>
            rw [hrec] at h
            cases r with
            | error e => simp [Except.map] at h
            | ok p =>
              have h' : (some (Except.ok
                  (p.1, (buf ++ bytes.take (DIGEST_SIZE - buf.length)) :: p.2)) :
                  Option (Except IoError (List Nat × List (List Nat)))) =
                  some (.ok (buf', recs)) := h
              have h2 := Except.ok.inj (Option.some.inj h')
              injection h2 with hb hr
              subst hb
              subst hr
              have hcons := ih [] (bytes.drop (DIGEST_SIZE - buf.length)) p.1 p.2
                (by rw [hrec])
              simp only [List.flatten_cons, List.append_assoc]
              rw [hcons]
              simp [List.take_append_drop]

/-- C3: the `IndexTranslator` is split-insensitive.  Feeding any two
splittings of the same byte sequence into non-empty slices through
`IndexTranslator::write` emits the same records in the same order, namely the
consecutive `DIGEST_SIZE`-byte records of the concatenated sequence, each of
length `DIGEST_SIZE`. -/
theorem indexTranslator_split_insensitive
    (s1 s2 : List (List Nat))
    (_h1 : ∀ x ∈ s1, x ≠ []) (_h2 : ∀ x ∈ s2, x ≠ [])
    (hflat : s1.flatten = s2.flatten) :
    (feedWrites ([], []) s1).2 = (feedWrites ([], []) s2).2 ∧
      (feedWrites ([], []) s1).2 = fullChunks s1.flatten ∧
      ∀ c ∈ (feedWrites ([], []) s1).2, c.length = DIGEST_SIZE := by
  have e1 := feedWrites_eq s1 [] [] (by decide)
  have e2 := feedWrites_eq s2 [] [] (by decide)
  rw [e1, e2, hflat]
  refine ⟨rfl, by simp, ?_⟩
  intro c hc
  simp only [List.nil_append, List.nil_append] at hc
  exact fullChunks_length_mem (by simpa using hc)

theorem indexTranslator_split_insensitive_witness :
    ((∀ x ∈ ([List.replicate 33 7] : List (List Nat)), x ≠ []) ∧
      (∀ x ∈ ([List.replicate 16 7, List.replicate 17 7] : List (List Nat)),
        x ≠ []) ∧
      ([List.replicate 33 7] : List (List Nat)).flatten =
        ([List.replicate 16 7, List.replicate 17 7] : List (List Nat)).flatten) ∧
    ((feedWrites ([], []) [List.replicate 33 7]).2 =
        (feedWrites ([], []) [List.replicate 16 7, List.replicate 17 7]).2 ∧
      (feedWrites ([], []) [List.replicate 33 7]).2 =
        fullChunks ([List.replicate 33 7] : List (List Nat)).flatten ∧
      ∀ c ∈ (feedWrites ([], []) [List.replicate 33 7]).2,
        c.length = DIGEST_SIZE) :=
  ⟨⟨by decide, by decide, by decide⟩,
    indexTranslator_split_insensitive _ _ (by decide) (by decide) (by decide)⟩

/-- C9: the partial-digest buffer of the `IndexTranslator` always holds
`(consumed so far) % DIGEST_SIZE` bytes after a successful write — in
particular between 0 and 31 bytes — and after any sequence of successful
writes totalling a multiple of `DIGEST_SIZE` bytes the buffer is empty, so
the empty-buffer check of `impl Drop for IndexTranslator` (reading.rs lines
116–122) passes on normal disposal of a translator that was fed a
whole-record stream. -/
theorem indexTranslator_buffer_invariant :
    (∀ buf bytes : List Nat, buf.length < DIGEST_SIZE →
        (itRun buf bytes).1.length =
            (buf.length + bytes.length) % DIGEST_SIZE ∧
          (itRun buf bytes).1.length < DIGEST_SIZE) ∧
      ∀ slices : List (List Nat), slices.flatten.length % DIGEST_SIZE = 0 →
        (feedWrites ([], []) slices).1 = [] := by
  constructor
  · intro buf bytes hbuf
    rw [itRun_eq hbuf, chunkRem_length]
    constructor
    · simp
    · exact Nat.mod_lt _ (by decide)
  · intro slices hlen
    rw [feedWrites_eq slices [] [] (by decide)]
    have h := chunkRem_length (([] : List Nat) ++ slices.flatten)
    simp only [List.nil_append] at h ⊢
    exact List.length_eq_zero.1 (h.trans hlen)

theorem indexTranslator_buffer_invariant_witness :
    (([1, 2] : List Nat).length < DIGEST_SIZE ∧
        (itRun [1, 2] (List.replicate 33 0)).1.length = 35 % DIGEST_SIZE) ∧
      (([List.replicate 32 5] : List (List Nat)).flatten.length %
            DIGEST_SIZE = 0 ∧
        (feedWrites ([], []) [List.replicate 32 5]).1 = []) := by
  constructor
  · refine ⟨by decide, ?_⟩
    have h := (indexTranslator_buffer_invariant.1 [1, 2]
      (List.replicate 33 0) (by decide)).1
    simpa using h
  · exact ⟨by decide,
      indexTranslator_buffer_invariant.2 [List.replicate 32 5] (by decide)⟩

/-- C10: a successful `IndexTranslator::write` call on a non-empty slice
returns the full slice length (the source returns the pre-captured
`total_len`), and every byte of the slice is consumed: the input is exactly
partitioned into the emitted records plus the retained partial buffer. -/
theorem indexTranslator_write_total
    (emit : List Nat → Except IoError Unit) (buf bytes buf' : List Nat)
    (n : Nat) (recs : List (List Nat)) (_hne : bytes ≠ [])
    (h : itWrite emit buf bytes = some (.ok (n, buf', recs))) :
    n = bytes.length ∧ recs.flatten ++ buf' = buf ++ bytes := by
  unfold itWrite at h
  cases hl : itLoopF emit (bytes.length + 1) buf bytes with
  | none => rw [hl] at h; simp at h
  | some r =>
    rw [hl] at h
    cases r with
    | error e => simp [Except.map] at h
    | ok p =>
      have h' : (some (Except.ok (bytes.length, p.1, p.2)) :
          Option (Except IoError (Nat × List Nat × List (List Nat)))) =
          some (.ok (n, buf', recs)) := h
      have h2 := Except.ok.inj (Option.some.inj h')
      injection h2 with hn h3
      injection h3 with hb hr
      subst hn
      subst hb
      subst hr
      exact ⟨rfl,
        itLoopF_flatten emit (bytes.length + 1) buf bytes p.1 p.2 (by rw [hl])⟩

theorem indexTranslator_write_total_witness :
    ((List.replicate 33 3 : List Nat) ≠ [] ∧
        itWrite okEmit [] (List.replicate 33 3) =
          some (.ok (33, List.replicate 1 3, [List.replicate 32 3]))) ∧
      (33 = (List.replicate 33 3 : List Nat).length ∧
        ([List.replicate 32 3] : List (List Nat)).flatten ++
            List.replicate 1 3 = [] ++ List.replicate 33 3) :=
  ⟨⟨by decide, by decide⟩,
    indexTranslator_write_total okEmit [] (List.replicate 33 3)
      (List.replicate 1 3) 33 [List.replicate 32 3] (by decide) (by decide)⟩

/-! ## The `DefaultChunkAccessor` read path and `GenerationUpdateChunkAccessor`
touch path (reading.rs lines 241–364 and 486–572)

The storage backend, decrypter, compression and hasher are the external
collaborators of §6; they enter the model as components of an `Env`.  Paths
are identified with `(digest, generation)` pairs, which is faithful because
`chunk_rel_path_by_digest` is deterministic and injective per
`(digest, generation)` (spec §6). -/

/-- Scatter-gathered chunk data (rdedup's `SGData`): a list of parts
(`as_parts`); the logical content is the flattened concatenation. -/
abbrev SGData := List (List Nat)

/-- The external collaborators of one `DefaultChunkAccessor` /
`GenerationUpdateChunkAccessor`.  `gens` is `gen_strings` (oldest first, the
last element is the current generation).  `read`/`readMetadata` model
`aio.read`/`aio.read_metadata` at `chunk_rel_path_by_digest(digest, gen)`;
the source discards the error value of a failed read (treating any failure
as a miss), so both are `Option`-valued.  `shouldEncrypt`/`shouldCompress`
are modelled from the spec: the `DataType` policy methods live in rdedup's
`lib.rs`, outside this snapshot, and spec §9 calls for an injectable
policy. -/
structure Env where
  gens : List String
  read : List Nat → String → Option SGData
  readMetadata : List Nat → String → Option Unit
  rename : (List Nat × String) → (List Nat × String) → Except IoError Unit
  decrypter : Option (SGData → List Nat → Except IoError SGData)
  decompress : SGData → Except IoError SGData
  calculate_digest : List Nat → List Nat
  shouldEncrypt : DataType → Bool
  shouldCompress : DataType → Bool

/-- The current generation, `gen_strings.last().unwrap()`: the source
panics on an empty generation list (never constructed); the default is
junk for that unreachable case. -/
def curGen (env : Env) : String := env.gens.getLast?.getD ""

/-- The generation probe of `DefaultChunkAccessor::read_chunk_into`
(lines 279–289): `aio.read` per generation, newest to oldest, first hit
wins and the loop breaks. -/
def findChunk (env : Env) (digest : List Nat) : Option (SGData × String) :=
  env.gens.reverse.findSome? fun g => (env.read digest g).map fun d => (d, g)

/-- The generation probe of `GenerationUpdateChunkAccessor::touch`
(lines 527–536): `aio.read_metadata` per generation, newest to oldest,
first hit wins; the metadata value itself is discarded. -/
def findChunkMeta (env : Env) (digest : List Nat) : Option String :=
  env.gens.reverse.findSome? fun g => (env.readMetadata digest g).map fun _ => g

/-- The best-effort generation promotion appearing verbatim in both
`DefaultChunkAccessor::read_chunk_into` (lines 300–324) and
`GenerationUpdateChunkAccessor::touch` (lines 547–569): if the winning
generation is not the current one, attempt the rename; a `NotFound` failure
is swallowed, any other failure is returned as the operation's error. -/
def promote (env : Env) (digest : List Nat) (dataGen : String) :
    Except IoError Unit :=
  if curGen env ≠ dataGen then
    match env.rename (digest, dataGen) (digest, curGen env) with
    | .error e => if e.kind ≠ .notFound then .error e else .ok ()
    | .ok _ => .ok ()
  else .ok ()

/-- `DefaultChunkAccessor::read_chunk_into` (reading.rs lines 269–359).
The writer is a pure byte accumulator; the result is the writer after the
call plus the outcome.  The `Decrypter expected` case models the source's
`expect` panic (unreachable under a consistent configuration). -/
def read_chunk_into (env : Env) (digest : List Nat) (data_type : DataType)
    (writer : List Nat) : List Nat × Except IoError Unit :=
  match findChunk env digest with
  | none =>
    (writer, .error ⟨.notFound, "Couldn't not find chunk: " ++ hexEncode digest⟩)
  | some (data0, dataGen) =>
    match promote env digest dataGen with
    | .error e => (writer, .error e)
    | .ok _ =>
      let step1 : Except IoError SGData :=
        if env.shouldEncrypt data_type then
          match env.decrypter with
          | some dec => dec data0 digest
          | none => .error ⟨.other, "Decrypter expected"⟩
        else .ok data0
      match step1 with
      | .error e => (writer, .error e)
      | .ok data1 =>
        match
          (if env.shouldCompress data_type then env.decompress data1
           else .ok data1) with
        | .error e => (writer, .error e)
        | .ok data2 =>
          let vec_result := env.calculate_digest data2.flatten
          if vec_result ≠ digest then
            (writer, .error ⟨.invalidData,
              hexEncode digest ++ " corrupted, data read: " ++
                hexEncode vec_result⟩)
          else
            (data2.foldl (fun w part => w ++ part) writer, .ok ())

/-- `GenerationUpdateChunkAccessor::touch` (reading.rs lines 523–571):
existence-only probe over metadata, newest to oldest, then the same
best-effort promotion; chunk content is never materialized. -/
def gu_touch (env : Env) (digest : List Nat) : Except IoError Unit :=
  match findChunkMeta env digest with
  | none => .error ⟨.notFound, "Couldn't not find chunk: " ++ hexEncode digest⟩
  | some dataGen => promote env digest dataGen

theorem findSome?_append_none {α β : Type} (l1 l2 : List α)
    (f : α → Option β) (h : ∀ x ∈ l1, f x = none) :
    (l1 ++ l2).findSome? f = l2.findSome? f := by
  induction l1 with
  | nil => simp
  | cons a l ih =>
    have ha : f a = none := h a (by simp)
    simp only [List.cons_append, List.findSome?_cons, ha]
    exact ih fun x hx => h x (by simp [hx])

theorem findSome?_congr {α β : Type} (l : List α) (f f' : α → Option β)
    (h : ∀ x ∈ l, f x = f' x) : l.findSome? f = l.findSome? f' := by
  induction l with
  | nil => simp
  | cons a l ih =>
    simp only [List.findSome?_cons, h a (by simp)]
    cases f' a with
    | none => exact ih fun x hx => h x (by simp [hx])
    | some b => rfl

theorem foldl_append_flatten (l : List (List Nat)) (w : List Nat) :
    l.foldl (fun acc part => acc ++ part) w = w ++ l.flatten := by
  induction l generalizing w with
  | nil => simp
  | cons a l ih => simp [ih, List.append_assoc]

theorem findSome?_none {α β : Type} (l : List α) (f : α → Option β)
    (h : ∀ x ∈ l, f x = none) : l.findSome? f = none := by
  have h2 := findSome?_append_none l [] f h
  simpa using h2

/-- C6: for both the Default read path and the GenerationUpdate touch path,
generations are probed newest to oldest and the first generation holding the
digest wins (first-found); a digest held by no generation yields a NotFound
error from either operation; and the touch probe consults only the
generation list, `read_metadata` and `rename` — never chunk content
(`read`). -/
theorem chunk_lookup_first_found (env env' : Env) (digest : List Nat)
    (pre post : List String) (g : String) :
    ((env.gens.reverse = pre ++ g :: post) →
      (∀ g' ∈ pre, env.read digest g' = none) →
      ∀ d, env.read digest g = some d →
        findChunk env digest = some (d, g)) ∧
    ((env.gens.reverse = pre ++ g :: post) →
      (∀ g' ∈ pre, env.readMetadata digest g' = none) →
      env.readMetadata digest g = some () →
        findChunkMeta env digest = some g) ∧
    ((∀ g' ∈ env.gens, env.read digest g' = none) →
      ∀ dt w, read_chunk_into env digest dt w =
        (w, .error ⟨.notFound,
          "Couldn't not find chunk: " ++ hexEncode digest⟩)) ∧
    ((∀ g' ∈ env.gens, env.readMetadata digest g' = none) →
      gu_touch env digest =
        .error ⟨.notFound, "Couldn't not find chunk: " ++ hexEncode digest⟩) ∧
    (env.gens = env'.gens → env.readMetadata = env'.readMetadata →
      env.rename = env'.rename →
      gu_touch env digest = gu_touch env' digest) := by
  refine ⟨?_, ?_, ?_, ?_, ?_⟩
  · intro hrev hpre d hd
    unfold findChunk
    rw [hrev, findSome?_append_none pre (g :: post) _ ?hnone]
    · simp [List.findSome?_cons, hd]
    case hnone =>
      intro x hx
      rw [hpre x hx]
      rfl
  · intro hrev hpre hd
    unfold findChunkMeta
    rw [hrev, findSome?_append_none pre (g :: post) _ ?hnone2]
    · simp [List.findSome?_cons, hd]
    case hnone2 =>
      intro x hx
      rw [hpre x hx]
      rfl
  · intro hall dt w
    have hfind : findChunk env digest = none := by
      unfold findChunk
      refine findSome?_none _ _ fun x hx => ?_
      rw [hall x (List.mem_reverse.1 hx)]
      rfl
    simp [read_chunk_into, hfind]
  · intro hall
    have hfind : findChunkMeta env digest = none := by
      unfold findChunkMeta
      refine findSome?_none _ _ fun x hx => ?_
      rw [hall x (List.mem_reverse.1 hx)]
      rfl
    simp [gu_touch, hfind]
  · intro hgens hmeta hren
    unfold gu_touch findChunkMeta promote curGen
    rw [hgens, hmeta, hren]

/-- C7: when the winning generation is not the current one, both paths run
the best-effort promotion rename; a rename failure of kind NotFound is
swallowed (the operation proceeds exactly as if the rename had succeeded),
while any other rename failure becomes the operation's error. -/
theorem promotion_rename_best_effort (env : Env) (digest : List Nat)
    (dataGen : String) (e : IoError) :
    ((env.rename (digest, dataGen) (digest, curGen env) = .error e) →
      e.kind = .notFound → promote env digest dataGen = .ok ()) ∧
    (curGen env ≠ dataGen →
      (env.rename (digest, dataGen) (digest, curGen env) = .error e) →
      e.kind ≠ .notFound → promote env digest dataGen = .error e) ∧
    (∀ data0 dt w, findChunk env digest = some (data0, dataGen) →
      promote env digest dataGen = .error e →
      read_chunk_into env digest dt w = (w, .error e)) ∧
    (∀ env' : Env, env.gens = env'.gens → env.read = env'.read →
      env.decrypter = env'.decrypter → env.decompress = env'.decompress →
      env.calculate_digest = env'.calculate_digest →
      env.shouldEncrypt = env'.shouldEncrypt →
      env.shouldCompress = env'.shouldCompress →
      (∀ p q, env'.rename p q = .ok ()) →
      ∀ data0, findChunk env digest = some (data0, dataGen) →
      (env.rename (digest, dataGen) (digest, curGen env) = .error e) →
      e.kind = .notFound →
      ∀ dt w, read_chunk_into env digest dt w =
        read_chunk_into env' digest dt w) ∧
    (findChunkMeta env digest = some dataGen →
      gu_touch env digest = promote env digest dataGen) := by
  refine ⟨?_, ?_, ?_, ?_, ?_⟩
  · intro hren hkind
    unfold promote
    by_cases hc : curGen env ≠ dataGen
    · rw [if_pos hc, hren]
      show (if e.kind ≠ ErrorKind.notFound then Except.error e
        else Except.ok ()) = Except.ok ()
      rw [if_neg (by simp [hkind])]
    · rw [if_neg hc]
  · intro hc hren hkind
    rw [promote, if_pos hc, hren]
    show (if e.kind ≠ ErrorKind.notFound then Except.error e
      else Except.ok ()) = Except.error e
    rw [if_pos hkind]
  · intro data0 dt w hfind hpro
    simp [read_chunk_into, hfind, hpro]
  · intro env' hgens hread hdecr hdecomp hcalc hencf hcompf hren data0 hfind
      hrenerr hkind dt w
    have hfc : findChunk env' digest = some (data0, dataGen) := by
      unfold findChunk at hfind ⊢
      rw [← hgens, ← hread]
      exact hfind
    have hpro : promote env digest dataGen = .ok () := by
      unfold promote
      by_cases hc : curGen env ≠ dataGen
      · rw [if_pos hc, hrenerr]
        show (if e.kind ≠ ErrorKind.notFound then Except.error e
          else Except.ok ()) = Except.ok ()
        rw [if_neg (by simp [hkind])]
      · rw [if_neg hc]
    have hpro' : promote env' digest dataGen = .ok () := by
      unfold promote
      by_cases hc : curGen env' ≠ dataGen
      · rw [if_pos hc, hren]
      · rw [if_neg hc]
    unfold read_chunk_into
    rw [hdecr, hdecomp, hcalc, hencf, hcompf]
    simp only [hfind, hfc, hpro, hpro']
  · intro hfm
    simp [gu_touch, hfm]

/-- C2: once the plaintext has been recovered (lookup, promotion, decrypt,
decompress all successful), `DefaultChunkAccessor::read_chunk_into`
recomputes the digest of the plaintext and compares it to the requested
digest: on mismatch it fails with an InvalidData error whose message
contains the hex of both the requested and the recomputed digest, and
writes nothing to the writer; on match it writes every part of the
scatter-gathered plaintext buffer to the writer in part order and returns
success. -/
theorem read_chunk_into_digest_check (env : Env) (digest : List Nat)
    (dt : DataType) (w : List Nat) (data0 data1 plain : SGData)
    (dataGen : String) (dec : SGData → List Nat → Except IoError SGData)
    (hfind : findChunk env digest = some (data0, dataGen))
    (hpromote : promote env digest dataGen = .ok ())
    (henc : env.shouldEncrypt dt = true)
    (hdecr : env.decrypter = some dec)
    (hdec : dec data0 digest = .ok data1)
    (hcomp : env.shouldCompress dt = true)
    (hdecomp : env.decompress data1 = .ok plain) :
    (env.calculate_digest plain.flatten ≠ digest →
      read_chunk_into env digest dt w =
        (w, .error ⟨.invalidData,
          hexEncode digest ++ " corrupted, data read: " ++
            hexEncode (env.calculate_digest plain.flatten)⟩) ∧
      List.IsInfix (hexEncode digest).data
        (hexEncode digest ++ " corrupted, data read: " ++
          hexEncode (env.calculate_digest plain.flatten)).data ∧
      List.IsInfix (hexEncode (env.calculate_digest plain.flatten)).data
        (hexEncode digest ++ " corrupted, data read: " ++
          hexEncode (env.calculate_digest plain.flatten)).data) ∧
    (env.calculate_digest plain.flatten = digest →
      read_chunk_into env digest dt w = (w ++ plain.flatten, .ok ()) ∧
      plain.foldl (fun acc part => acc ++ part) w = w ++ plain.flatten) := by
  constructor
  · intro hne
    refine ⟨?_, ?_, ?_⟩
    · unfold read_chunk_into
      simp only [hfind, hpromote, henc, hdecr, hdec, hcomp, hdecomp, if_true]
      rw [if_pos hne]
    · exact ⟨[], (" corrupted, data read: " ++
        hexEncode (env.calculate_digest plain.flatten)).data,
        by simp [String.data_append]⟩
    · exact ⟨(hexEncode digest ++ " corrupted, data read: ").data, [],
        by simp [String.data_append]⟩
  · intro heq
    constructor
    · unfold read_chunk_into
      simp only [hfind, hpromote, henc, hdecr, hdec, hcomp, hdecomp, if_true]
      rw [if_neg (by simp [heq]), foldl_append_flatten]
    · exact foldl_append_flatten plain w

/-- A concrete environment: digest `[10]` is stored only in the old
generation, digest `[3]` only in the current one (`"gNew"`); the hasher
keeps the first byte, so chunk `[10]` is corrupt and chunk `[3]` is
intact. -/
def envT : Env where
  gens := ["gOld", "gNew"]
  read := fun d g =>
    if d = [10] ∧ g = "gOld" then some [[3, 4]]
    else if d = [3] ∧ g = "gNew" then some [[3, 9]] else none
  readMetadata := fun d g => if d = [10] ∧ g = "gOld" then some () else none
  rename := fun _ _ => .ok ()
  decrypter := some fun d _ => .ok d
  decompress := fun d => .ok d
  calculate_digest := fun bs => bs.take 1
  shouldEncrypt := fun _ => true
  shouldCompress := fun _ => true

/-- `envT` with the content reads stripped out (metadata intact). -/
def envT2 : Env where
  gens := ["gOld", "gNew"]
  read := fun _ _ => none
  readMetadata := fun d g => if d = [10] ∧ g = "gOld" then some () else none
  rename := fun _ _ => .ok ()
  decrypter := some fun d _ => .ok d
  decompress := fun d => .ok d
  calculate_digest := fun bs => bs.take 1
  shouldEncrypt := fun _ => true
  shouldCompress := fun _ => true

/-- `envT` whose renames fail with NotFound (a lost promotion race). -/
def envRN : Env where
  gens := ["gOld", "gNew"]
  read := fun d g =>
    if d = [10] ∧ g = "gOld" then some [[3, 4]]
    else if d = [3] ∧ g = "gNew" then some [[3, 9]] else none
  readMetadata := fun d g => if d = [10] ∧ g = "gOld" then some () else none
  rename := fun _ _ => .error ⟨.notFound, "gone"⟩
  decrypter := some fun d _ => .ok d
  decompress := fun d => .ok d
  calculate_digest := fun bs => bs.take 1
  shouldEncrypt := fun _ => true
  shouldCompress := fun _ => true

/-- `envRN` with the renames succeeding instead. -/
def envRNOk : Env where
  gens := ["gOld", "gNew"]
  read := fun d g =>
    if d = [10] ∧ g = "gOld" then some [[3, 4]]
    else if d = [3] ∧ g = "gNew" then some [[3, 9]] else none
  readMetadata := fun d g => if d = [10] ∧ g = "gOld" then some () else none
  rename := fun _ _ => .ok ()
  decrypter := some fun d _ => .ok d
  decompress := fun d => .ok d
  calculate_digest := fun bs => bs.take 1
  shouldEncrypt := fun _ => true
  shouldCompress := fun _ => true

/-- `envT` whose renames fail fatally (not NotFound). -/
def envRF : Env where
  gens := ["gOld", "gNew"]
  read := fun d g =>
    if d = [10] ∧ g = "gOld" then some [[3, 4]]
    else if d = [3] ∧ g = "gNew" then some [[3, 9]] else none
  readMetadata := fun d g => if d = [10] ∧ g = "gOld" then some () else none
  rename := fun _ _ => .error ⟨.other, "boom"⟩
  decrypter := some fun d _ => .ok d
  decompress := fun d => .ok d
  calculate_digest := fun bs => bs.take 1
  shouldEncrypt := fun _ => true
  shouldCompress := fun _ => true

theorem chunk_lookup_first_found_witness :
    findChunk envT [10] = some ([[3, 4]], "gOld") ∧
      read_chunk_into envT [99] .data [] =
        ([], .error ⟨.notFound, "Couldn't not find chunk: " ++ hexEncode [99]⟩) ∧
      gu_touch envT [99] =
        .error ⟨.notFound, "Couldn't not find chunk: " ++ hexEncode [99]⟩ ∧
      gu_touch envT [10] = gu_touch envT2 [10] :=
  ⟨(chunk_lookup_first_found envT envT [10] ["gNew"] [] "gOld").1 rfl
      (by decide) [[3, 4]] (by decide),
    (chunk_lookup_first_found envT envT [99] [] [] "").2.2.1 (by decide) .data [],
    (chunk_lookup_first_found envT envT [99] [] [] "").2.2.2.1 (by decide),
    (chunk_lookup_first_found envT envT2 [10] [] [] "").2.2.2.2 rfl rfl rfl⟩

theorem promotion_rename_best_effort_witness :
    (envRN.rename ([10], "gOld") ([10], curGen envRN) =
        .error ⟨.notFound, "gone"⟩ ∧
      promote envRN [10] "gOld" = .ok ()) ∧
    (curGen envRF ≠ "gOld" ∧
      promote envRF [10] "gOld" = .error ⟨.other, "boom"⟩) ∧
    read_chunk_into envRF [10] .data [] = ([], .error ⟨.other, "boom"⟩) ∧
    read_chunk_into envRN [10] .data [] =
      read_chunk_into envRNOk [10] .data [] ∧
    gu_touch envRN [10] = promote envRN [10] "gOld" := by
  refine ⟨⟨rfl, ?_⟩, ⟨by decide, ?_⟩, ?_, ?_, ?_⟩
  · exact (promotion_rename_best_effort envRN [10] "gOld"
      ⟨.notFound, "gone"⟩).1 rfl rfl
  · exact (promotion_rename_best_effort envRF [10] "gOld"
      ⟨.other, "boom"⟩).2.1 (by decide) rfl (by decide)
  · exact (promotion_rename_best_effort envRF [10] "gOld"
      ⟨.other, "boom"⟩).2.2.1 [[3, 4]] .data [] (by decide) (by decide)
  · exact (promotion_rename_best_effort envRN [10] "gOld"
      ⟨.notFound, "gone"⟩).2.2.2.1 envRNOk rfl rfl rfl rfl rfl rfl rfl
      (fun p q => rfl) [[3, 4]] (by decide) rfl rfl .data []
  · exact (promotion_rename_best_effort envRN [10] "gOld"
      ⟨.notFound, "gone"⟩).2.2.2.2 (by decide)

theorem read_chunk_into_digest_check_witness :
    (envT.calculate_digest ([[3, 9]] : SGData).flatten = [3] ∧
      read_chunk_into envT [3] .data [7] = ([7, 3, 9], .ok ())) ∧
    (envT.calculate_digest ([[3, 4]] : SGData).flatten ≠ [10] ∧
      read_chunk_into envT [10] .data [] =
        ([], .error ⟨.invalidData,
          hexEncode [10] ++ " corrupted, data read: " ++ hexEncode [3]⟩)) := by
  constructor
  · refine ⟨by decide, ?_⟩
    exact ((read_chunk_into_digest_check envT [3] .data [7] [[3, 9]]
      [[3, 9]] [[3, 9]] "gNew" (fun d _ => .ok d) (by decide) (by decide) rfl
      rfl rfl rfl rfl).2 (by decide)).1
  · refine ⟨by decide, ?_⟩
    exact ((read_chunk_into_digest_check envT [10] .data [] [[3, 4]]
      [[3, 4]] [[3, 4]] "gOld" (fun d _ => .ok d) (by decide) (by decide) rfl
      rfl rfl rfl rfl).1 (by decide)).1

/-! ## The `VerifyingChunkAccessor` (reading.rs lines 416–484)

The delegate `raw.read_chunk_into` (a `DefaultChunkAccessor` read) is
abstracted as a function from the digest to its outcome; its byte output is
irrelevant to the accessor's bookkeeping. -/

/-- The mutable state of a `VerifyingChunkAccessor`: the `accessed` de-dup
set (a `HashSet`, modelled as a duplicate-free list) and the accumulated
`(digest, error)` vector. -/
structure VState where
  accessed : List (List Nat)
  errors : List (List Nat × IoError)
deriving DecidableEq

/-- `VerifyResults`, as constructed by `get_results`: declared in rdedup's
`lib.rs` (not in this snapshot); its two fields are filled in at reading.rs
lines 446–449. -/
structure VerifyResults where
  scanned : Nat
  errors : List (List Nat × IoError)
deriving DecidableEq

/-- `VerifyingChunkAccessor::read_chunk_into` (reading.rs lines 458–479):
return immediately when the digest was already visited; otherwise insert it,
delegate, and on a delegate failure push `(digest, error)`; the call itself
always returns `Ok`. -/
def v_read_chunk_into (f : List Nat → Except IoError Unit) (s : VState)
    (digest : List Nat) : VState × Except IoError Unit :=
  if digest ∈ s.accessed then (s, .ok ())
  else
    match f digest with
    | .ok _ => (⟨digest :: s.accessed, s.errors⟩, .ok ())
    | .error e => (⟨digest :: s.accessed, s.errors ++ [(digest, e)]⟩, .ok ())

/-- A traversal's sequence of `read_chunk_into` calls on one
`VerifyingChunkAccessor`, threading its state. -/
def v_walk (f : List Nat → Except IoError Unit) :
    VState → List (List Nat) → VState
  | s, [] => s
  | s, d :: ds => v_walk f (v_read_chunk_into f s d).1 ds

/-- `VerifyingChunkAccessor::get_results` (reading.rs lines 445–450). -/
def get_results (s : VState) : VerifyResults :=
  ⟨s.accessed.length, s.errors⟩

theorem v_read_accessed (f : List Nat → Except IoError Unit) (s : VState)
    (d : List Nat) :
    (v_read_chunk_into f s d).1.accessed =
      if d ∈ s.accessed then s.accessed else d :: s.accessed := by
  unfold v_read_chunk_into
  by_cases hd : d ∈ s.accessed
  · rw [if_pos hd, if_pos hd]
  · rw [if_neg hd, if_neg hd]
    cases f d <;> rfl

theorem v_walk_accessed (f : List Nat → Except IoError Unit) :
    ∀ (ds : List (List Nat)) (s : VState), s.accessed.Nodup →
      ((v_walk f s ds).accessed.Nodup ∧
        (v_walk f s ds).accessed.toFinset =
          s.accessed.toFinset ∪ ds.toFinset) := by
  intro ds
  induction ds with
  | nil => intro s hs; exact ⟨hs, by simp [v_walk]⟩
  | cons d ds ih =>
    intro s hs
    unfold v_walk
    by_cases hd : d ∈ s.accessed
    · have hacc : (v_read_chunk_into f s d).1.accessed = s.accessed := by
        rw [v_read_accessed, if_pos hd]
      obtain ⟨h1, h2⟩ := ih (v_read_chunk_into f s d).1 (by rw [hacc]; exact hs)
      refine ⟨h1, ?_⟩
      rw [h2, hacc]
      ext a
      simp only [Finset.mem_union, List.mem_toFinset, List.toFinset_cons,
        Finset.mem_insert]
      constructor
      · tauto
      · rintro (h | rfl | h)
        · exact Or.inl h
        · exact Or.inl hd
        · exact Or.inr h
    · have hacc : (v_read_chunk_into f s d).1.accessed = d :: s.accessed := by
        rw [v_read_accessed, if_neg hd]
      obtain ⟨h1, h2⟩ := ih (v_read_chunk_into f s d).1
        (by rw [hacc]; exact List.Nodup.cons hd hs)
      refine ⟨h1, ?_⟩
      rw [h2, hacc]
      ext a
      simp only [Finset.mem_union, List.mem_toFinset, List.toFinset_cons,
        Finset.mem_insert, List.mem_cons]
      tauto

theorem v_walk_errors (f : List Nat → Except IoError Unit) (c : List Nat)
    (e : IoError) (hc : f c = .error e) :
    ∀ (ds : List (List Nat)) (s : VState),
      (∀ d ∈ ds, d ≠ c → f d = .ok ()) →
      ((c ∈ s.accessed → (v_walk f s ds).errors = s.errors) ∧
        (c ∉ s.accessed → (v_walk f s ds).errors =
          s.errors ++ if c ∈ ds then [(c, e)] else [])) := by
  intro ds
  induction ds with
  | nil =>
    intro s _
    exact ⟨fun _ => rfl, fun _ => by simp [v_walk]⟩
  | cons d ds ih =>
    intro s hok
    have hok' : ∀ d' ∈ ds, d' ≠ c → f d' = .ok () :=
      fun d' hd' => hok d' (by simp [hd'])
    unfold v_walk
    constructor
    · intro hcs
      have hdc : d ∈ s.accessed ∨ d ≠ c := by
        by_cases h : d = c
        · subst h; exact Or.inl hcs
        · exact Or.inr h
      have hstate : (v_read_chunk_into f s d).1.errors = s.errors ∧
          c ∈ (v_read_chunk_into f s d).1.accessed := by
        unfold v_read_chunk_into
        by_cases hd : d ∈ s.accessed
        · rw [if_pos hd]; exact ⟨rfl, hcs⟩
        · rw [if_neg hd]
          have hne : d ≠ c := by
            rcases hdc with h | h
            · exact absurd h hd
            · exact h
          rw [hok d (by simp) hne]
          exact ⟨rfl, by simp [hcs]⟩
      have := (ih (v_read_chunk_into f s d).1 hok').1 hstate.2
      rw [this, hstate.1]
    · intro hcs
      by_cases hdceq : d = c
      · subst hdceq
        have hd : d ∉ s.accessed := hcs
        have hstep : (v_read_chunk_into f s d).1 =
            ⟨d :: s.accessed, s.errors ++ [(d, e)]⟩ := by
          unfold v_read_chunk_into
          rw [if_neg hd, hc]
        have := (ih (v_read_chunk_into f s d).1 hok').1
          (by rw [hstep]; simp)
        rw [this, hstep]
        simp
      · have hstate : (v_read_chunk_into f s d).1.errors = s.errors ∧
            c ∉ (v_read_chunk_into f s d).1.accessed := by
          unfold v_read_chunk_into
          by_cases hd : d ∈ s.accessed
          · rw [if_pos hd]; exact ⟨rfl, hcs⟩
          · rw [if_neg hd, hok d (by simp) hdceq]
            refine ⟨rfl, ?_⟩
            simp only [List.mem_cons, not_or]
            exact ⟨fun h => hdceq h.symm, hcs⟩
        have := (ih (v_read_chunk_into f s d).1 hok').2 hstate.2
        rw [this, hstate.1]
        have hiff : (c ∈ d :: ds) ↔ (c ∈ ds) := by
          constructor
          · intro h
            rcases List.mem_cons.1 h with h1 | h1
            · exact absurd h1.symm hdceq
            · exact h1
          · exact fun h => List.mem_cons_of_mem _ h
        simp [hiff]

/-- C5: `VerifyingChunkAccessor::read_chunk_into` returns success
immediately — without consulting the delegate — when the digest was already
visited; otherwise it records the digest as visited, delegates, and turns a
delegate failure into an appended `(digest, error)` entry while still
returning success, so a Verifying walk never aborts on a per-chunk failure;
the terminal `get_results` reports `scanned` equal to the number of distinct
digests passed to `read_chunk_into`, and a walk whose only failing digest is
`c` yields exactly one error entry, for `c`. -/
theorem verifying_accessor_tolerant (f g : List Nat → Except IoError Unit)
    (s : VState) (d c : List Nat) (ds : List (List Nat)) (e : IoError) :
    (d ∈ s.accessed → v_read_chunk_into f s d = (s, .ok ()) ∧
      v_read_chunk_into f s d = v_read_chunk_into g s d) ∧
    ((v_read_chunk_into f s d).2 = .ok ()) ∧
    (d ∉ s.accessed → f d = .error e →
      v_read_chunk_into f s d =
        (⟨d :: s.accessed, s.errors ++ [(d, e)]⟩, .ok ())) ∧
    ((get_results (v_walk f ⟨[], []⟩ ds)).scanned = ds.toFinset.card) ∧
    (c ∈ ds → f c = .error e → (∀ d' ∈ ds, d' ≠ c → f d' = .ok ()) →
      (get_results (v_walk f ⟨[], []⟩ ds)).errors = [(c, e)]) := by
  refine ⟨?_, ?_, ?_, ?_, ?_⟩
  · intro hd
    unfold v_read_chunk_into
    rw [if_pos hd, if_pos hd]
    exact ⟨rfl, rfl⟩
  · unfold v_read_chunk_into
    by_cases hd : d ∈ s.accessed
    · rw [if_pos hd]
    · rw [if_neg hd]
      cases f d <;> rfl
  · intro hd hf
    unfold v_read_chunk_into
    rw [if_neg hd, hf]
  · obtain ⟨h1, h2⟩ := v_walk_accessed f ds ⟨[], []⟩ (by simp)
    unfold get_results
    rw [← List.toFinset_card_of_nodup h1, h2]
    simp
  · intro hcds hc hok
    have := (v_walk_errors f c e hc ds ⟨[], []⟩ hok).2 (by simp)
    unfold get_results
    rw [this]
    simp [hcds]

theorem verifying_accessor_tolerant_witness :
    (get_results (v_walk
        (fun d => if d = [2] then .error ⟨.invalidData, "bad"⟩ else .ok ())
        ⟨[], []⟩ [[1], [2], [1]])).scanned =
      ([[1], [2], [1]] : List (List Nat)).toFinset.card ∧
    (get_results (v_walk
        (fun d => if d = [2] then .error ⟨.invalidData, "bad"⟩ else .ok ())
        ⟨[], []⟩ [[1], [2], [1]])).errors =
      [([2], ⟨.invalidData, "bad"⟩)] :=
  ⟨(verifying_accessor_tolerant
      (fun d => if d = [2] then .error ⟨.invalidData, "bad"⟩ else .ok ())
      (fun _ => .ok ()) ⟨[], []⟩ [] [2] [[1], [2], [1]]
      ⟨.invalidData, "bad"⟩).2.2.2.1,
    (verifying_accessor_tolerant
      (fun d => if d = [2] then .error ⟨.invalidData, "bad"⟩ else .ok ())
      (fun _ => .ok ()) ⟨[], []⟩ [] [2] [[1], [2], [1]]
      ⟨.invalidData, "bad"⟩).2.2.2.2 (by decide) (by decide) (by decide)⟩

/-! ## The recursive resolver (reading.rs lines 25–222)

`ReadContext::read_recursively` / `on_index` / `on_data` and the effectful
side of `IndexTranslator::write` form a mutual recursion; it is modelled as
one step function over a `Job`, made structural by a fuel parameter
(`none` = fuel exhausted; `runF_mono` shows results are stable under
additional fuel, and every theorem quantifies over sufficient fuel).

The `ChunkAccessor` trait object held by the `ReadContext` is abstracted as
`fetch` (recover the verified plaintext of one chunk) plus `touch`; per the
trait contract `read_chunk_into` delivers the plaintext to the writer, which
is modelled as `fetch` followed by one write of the flattened parts —
equivalent to the source's per-part `write_all` loop because a translator
consumes each whole slice (`indexTranslator_write_total`) and its record
stream is split-insensitive (`indexTranslator_split_insensitive`). -/

/-- The `ChunkAccessor` capability as used by the resolver. -/
structure Accessor where
  fetch : DataType → List Nat → Except IoError (List Nat)
  touch : List Nat → Except IoError Unit

/-- A writer: the caller's output sink (`base`), or an `IndexTranslator`
holding its wrapped `writer : Option<&mut dyn Write>`, its `data_type` and
its partial `digest_buf`.  `own` is a ghost field recording the
`index_level` of the request whose writer and data_type the translator took
in `on_index`; it does not influence the run and only lets theorems speak
about a translator's owning request. -/
inductive Wx where
  | base : Wx
  | trans (dt : DataType) (buf : List Nat) (inner : Option Wx) (own : Nat) : Wx

/-- One emission event: the translator owned by a level-`own` request
invoked `read_recursively` at index level `passed` for digest `dg` with
data type `dt`.  The source hardcodes `index_level: 0` at both emission
sites (reading.rs lines 86 and 100). -/
structure Emit where
  own : Nat
  passed : Nat
  dt : DataType
  dg : List Nat
deriving DecidableEq

/-- The three mutually recursive activities of the resolver. -/
inductive Job where
  | rrec (dt : DataType) (dg : List Nat) (level : Nat) (w : Option Wx)
  | wwrite (w : Wx) (bytes : List Nat)
  | emits (dt : DataType) (own : Nat) (w : Option Wx) (recs : List (List Nat))

/-- A run yields the updated writer, the bytes delivered to the base sink,
and the trace of translator emissions. -/
abbrev RunResult := Except IoError (Option Wx × List Nat × List Emit)

/-- After `on_index` returns, the translator is dropped and the original
writer (its `inner`) is handed back; the non-translator cases are
unreachable. -/
def peel : Option Wx → Option Wx
  | some (.trans _ _ inner _) => inner
  | w => w

/-- The resolver's step function.
* `rrec` is `read_recursively`: at `index_level = 0` with a writer, fetch the
  verified plaintext and write it (`on_data` / `read_chunk_into`); with no
  writer, `accessor.touch` (`on_data`); at `index_level > 0`, wrap the
  request's writer in a fresh `IndexTranslator` and re-resolve the same
  digest one level down with `DataType::Index` (`on_index`).
* `wwrite` is a `write_all` into a writer: the base sink accepts the bytes;
  a translator re-chunks them (`itRun`) and emits each completed record.
* `emits` performs the translator's per-record
  `read_recursively(data_type, { digest, index_level: 0 }, writer)` calls in
  order, aborting at the first failure. -/
def runF (acc : Accessor) : Nat → Job → Option RunResult
  | 0, _ => none
  | fuel + 1, .rrec dt dg 0 (some w) =>
    match acc.fetch dt dg with
    | .error e => some (.error e)
    | .ok c => runF acc fuel (.wwrite w c)
  | _ + 1, .rrec _ dg 0 none =>
    some ((acc.touch dg).map fun _ => (none, [], []))
  | fuel + 1, .rrec dt dg (level + 1) w =>
    match runF acc fuel
        (.rrec .index dg level (some (.trans dt [] w (level + 1)))) with
    | none => none
    | some (.error e) => some (.error e)
    | some (.ok (w', out, tr)) => some (.ok (peel w', out, tr))
  | _ + 1, .wwrite .base bytes => some (.ok (some .base, bytes, []))
  | fuel + 1, .wwrite (.trans dt buf inner own) bytes =>
    match runF acc fuel (.emits dt own inner (itRun buf bytes).2) with
    | none => none
    | some (.error e) => some (.error e)
    | some (.ok (inner', out, tr)) =>
      some (.ok (some (.trans dt (itRun buf bytes).1 inner' own), out, tr))
  | _ + 1, .emits _ _ w [] => some (.ok (w, [], []))
  | fuel + 1, .emits dt own w (r :: rs) =>
    match runF acc fuel (.rrec dt r 0 w) with
    | none => none
    | some (.error e) => some (.error e)
    | some (.ok (w', o1, t1)) =>
      match runF acc fuel (.emits dt own w' rs) with
      | none => none
      | some (.error e) => some (.error e)
      | some (.ok (w'', o2, t2)) =>
        some (.ok (w'', o1 ++ o2, ⟨own, 0, dt, r⟩ :: (t1 ++ t2)))

/-- Fuel monotonicity: a run that yields a value keeps yielding the same
value with more fuel. -/
theorem runF_mono (acc : Accessor) :
    ∀ (f1 f2 : Nat) (j : Job) (r : RunResult), f1 ≤ f2 →
      runF acc f1 j = some r → runF acc f2 j = some r := by
  intro f1
  induction f1 with
  | zero =>
    intro f2 j r _ h
    simp [runF] at h
  | succ f1 ih =>
    intro f2 j r hle h
    obtain ⟨g, rfl⟩ : ∃ g, f2 = g + 1 := ⟨f2 - 1, by omega⟩
    have hg : f1 ≤ g := by omega
    cases j with
    | rrec dt dg level w =>
      cases level with
      | zero =>
        cases w with
        | none => exact h
        | some w =>
          simp only [runF] at h ⊢
          cases hf : acc.fetch dt dg with
          | error e => rw [hf] at h; exact h
          | ok c => rw [hf] at h; exact ih g _ r hg h
      | succ level =>
        simp only [runF] at h ⊢
        split at h
        · exact absurd h (by simp)
        · rename_i e heq
          rw [ih g _ _ hg heq]
          exact h
        · rename_i w' out tr heq
          rw [ih g _ _ hg heq]
          exact h
    | wwrite w bytes =>
      cases w with
      | base => exact h
      | trans dt buf inner own =>
        simp only [runF] at h ⊢
        split at h
        · exact absurd h (by simp)
        · rename_i e heq
          rw [ih g _ _ hg heq]
          exact h
        · rename_i inner' out tr heq
          rw [ih g _ _ hg heq]
          exact h
    | emits dt own w recs =>
      cases recs with
      | nil => exact h
      | cons r0 rs =>
        simp only [runF] at h ⊢
        split at h
        · exact absurd h (by simp)
        · rename_i e heq
          rw [ih g _ _ hg heq]
          exact h
        · rename_i w' o1 t1 heq
          rw [ih g _ _ hg heq]
          split at h
          · exact absurd h (by simp)
          · rename_i e heq2
            rw [ih g _ _ hg heq2]
            exact h
          · rename_i w'' o2 t2 heq2
            rw [ih g _ _ hg heq2]
            exact h

/-- A chunk store: digest ↦ plaintext of the stored chunk. -/
abbrev Store := List Nat → Option (List Nat)

/-- The accessor over an intact store: every fetch delivers the stored
plaintext (a successful `DefaultChunkAccessor::read_chunk_into`, the
`data_type` only selecting the — here already applied — decrypt/decompress
policy), a missing chunk is the NotFound failure, and `touch` is Default's
no-op success. -/
def storeAcc (store : Store) : Accessor where
  fetch := fun _ dg =>
    match store dg with
    | some c => .ok c
    | none => .error ⟨.notFound, "Couldn't not find chunk: " ++ hexEncode dg⟩
  touch := fun _ => .ok ()

/-- Ground truth: the object denoted by `(digest, index_level)` — the
concatenation, depth-first and in the order the digests appear in the index
content, of the plaintexts of the tree's leaf chunks.  `none` when a chunk
is missing or an index chunk's plaintext is not a whole sequence of
`DIGEST_SIZE`-byte records. -/
def plainOf (store : Store) : Nat → List Nat → Option (List Nat)
  | 0, dg => store dg
  | level + 1, dg =>
    (store dg).bind fun c =>
      if c.length % DIGEST_SIZE = 0 then
        ((fullChunks c).mapM (plainOf store level)).map List.flatten
      else none

/-- What writing `bytes` into a clean `k`-high translator stack over the
base sink delivers to the base. -/
def bytesResolve (store : Store) : Nat → List Nat → Option (List Nat)
  | 0, bytes => some bytes
  | k + 1, bytes =>
    if bytes.length % DIGEST_SIZE = 0 then
      ((fullChunks bytes).mapM (plainOf store k)).map List.flatten
    else none

theorem plainOf_eq_bind (store : Store) (L : Nat) (dg : List Nat) :
    plainOf store L dg = (store dg).bind (bytesResolve store L) := by
  cases L with
  | zero =>
    show store dg = (store dg).bind (bytesResolve store 0)
    cases store dg <;> rfl
  | succ L => rfl

/-- Clean translator stacks over the base sink: all partial buffers empty,
the caller's sink at the bottom. -/
inductive CleanS : Nat → Wx → Prop
  | base : CleanS 0 .base
  | step {k : Nat} {w : Wx} (dt : DataType) (own : Nat) (h : CleanS k w) :
      CleanS (k + 1) (.trans dt [] (some w) own)

theorem mapM_some_eq {α : Type} (g : α → Option (List Nat)) :
    ∀ (l : List α) (outs : List (List Nat)), l.mapM g = some outs →
      (∀ a ∈ l, g a = some ((g a).getD [])) ∧
        outs = l.map fun a => (g a).getD [] := by
  intro l
  induction l with
  | nil =>
    intro outs h
    have h' : some ([] : List (List Nat)) = some outs := h
    exact ⟨by simp, (Option.some.inj h').symm⟩
  | cons a l ih =>
    intro outs h
    rw [List.mapM_cons] at h
    cases ha : g a with
    | none =>
      rw [ha] at h
      have h' : (none : Option (List (List Nat))) = some outs := h
      cases h'
    | some o =>
      rw [ha] at h
      cases hl : l.mapM g with
      | none =>
        rw [hl] at h
        have h' : (none : Option (List (List Nat))) = some outs := h
        cases h'
      | some os =>
        rw [hl] at h
        have h' : some (o :: os) = some outs := h
        have houts : outs = o :: os := (Option.some.inj h').symm
        obtain ⟨h1, h2⟩ := ih os hl
        constructor
        · intro a' ha'
          rcases List.mem_cons.1 ha' with rfl | hmem
          · rw [ha]
            rfl
          · exact h1 a' hmem
        · rw [houts, List.map_cons, ha, h2]
          rfl

/-- Lifting a successful write into the `on_data` clause: at level 0 with a
writer, `read_recursively` fetches the chunk and performs the write. -/
theorem rrec0_step (store : Store) (dt : DataType) (dg : List Nat) (w : Wx)
    (c out : List Nat) (tr : List Emit) (N : Nat)
    (hc : store dg = some c)
    (h : ∀ f ≥ N, runF (storeAcc store) f (.wwrite w c) =
      some (.ok (some w, out, tr))) :
    ∀ f ≥ N + 1, runF (storeAcc store) f (.rrec dt dg 0 (some w)) =
      some (.ok (some w, out, tr)) := by
  intro f hf
  obtain ⟨f', rfl⟩ : ∃ g, f = g + 1 := ⟨f - 1, by omega⟩
  simp only [runF]
  have hfetch : (storeAcc store).fetch dt dg = .ok c := by
    simp only [storeAcc, hc]
  rw [hfetch]
  exact h f' (by omega)

/-- The translator's emission loop composes per-record resolutions that
return the writer unchanged. -/
theorem emits_seq (acc : Accessor) (dt : DataType) (own : Nat) (w : Option Wx)
    (outF : List Nat → List Nat) :
    ∀ recs : List (List Nat),
      (∀ r ∈ recs, ∃ N tr, ∀ f ≥ N,
        runF acc f (.rrec dt r 0 w) = some (.ok (w, outF r, tr))) →
      ∃ N tr, ∀ f ≥ N, runF acc f (.emits dt own w recs) =
        some (.ok (w, (recs.map outF).flatten, tr)) := by
  intro recs
  induction recs with
  | nil =>
    intro _
    refine ⟨1, [], fun f hf => ?_⟩
    obtain ⟨f', rfl⟩ : ∃ g, f = g + 1 := ⟨f - 1, by omega⟩
    rfl
  | cons r rs ih =>
    intro hstep
    obtain ⟨N1, tr1, h1⟩ := hstep r (by simp)
    obtain ⟨N2, tr2, h2⟩ := ih fun r' hr' => hstep r' (by simp [hr'])
    refine ⟨max N1 N2 + 1, ⟨own, 0, dt, r⟩ :: (tr1 ++ tr2), fun f hf => ?_⟩
    obtain ⟨f', rfl⟩ : ∃ g, f = g + 1 := ⟨f - 1, by omega⟩
    have e1 : runF acc (f' + 1) (.emits dt own w (r :: rs)) =
        match runF acc f' (.emits dt own w rs) with
        | none => none
        | some (.error e) => some (.error e)
        | some (.ok (w'', o2, t2)) =>
          some (.ok (w'', outF r ++ o2, ⟨own, 0, dt, r⟩ :: (tr1 ++ t2))) := by
      simp only [runF]
      rw [h1 f' (by omega)]
    rw [e1, h2 f' (by omega)]
    rfl

/-- Writing a whole-record byte string into a clean translator stack
delivers its resolution to the base sink and returns the stack unchanged
(buffers empty again). -/
theorem writeW_clean (store : Store) (k : Nat) (w : Wx)
    (hclean : CleanS k w) :
    ∀ bytes out : List Nat, bytesResolve store k bytes = some out →
      ∃ N tr, ∀ f ≥ N, runF (storeAcc store) f (.wwrite w bytes) =
        some (.ok (some w, out, tr)) := by
  induction hclean with
  | base =>
    intro bytes out hres
    have h' : some bytes = some out := hres
    obtain rfl : out = bytes := (Option.some.inj h').symm
    refine ⟨1, [], fun f hf => ?_⟩
    obtain ⟨f', rfl⟩ : ∃ g, f = g + 1 := ⟨f - 1, by omega⟩
    rfl
  | step dt own h0 ih =>
    rename_i k0 w0
    intro bytes out hres
    simp only [bytesResolve] at hres
    by_cases hlen : bytes.length % DIGEST_SIZE = 0
    · rw [if_pos hlen] at hres
      cases hmap : (fullChunks bytes).mapM (plainOf store k0) with
      | none =>
        rw [hmap] at hres
        have h' : (none : Option (List Nat)) = some out := hres
        cases h'
      | some outs =>
        rw [hmap] at hres
        have h' : some outs.flatten = some out := hres
        obtain rfl : out = outs.flatten := (Option.some.inj h').symm
        obtain ⟨hall, houts⟩ :=
          mapM_some_eq (plainOf store k0) (fullChunks bytes) outs hmap
        have hstep : ∀ r ∈ fullChunks bytes, ∃ N tr, ∀ f ≥ N,
            runF (storeAcc store) f (.rrec dt r 0 (some w0)) =
              some (.ok (some w0, (plainOf store k0 r).getD [], tr)) := by
          intro r hr
          obtain ⟨o, ho⟩ : ∃ o, plainOf store k0 r = some o := ⟨_, hall r hr⟩
          have hgoal : (plainOf store k0 r).getD [] = o := by rw [ho]; rfl
          rw [hgoal]
          have hbind := ho
          rw [plainOf_eq_bind] at hbind
          cases hsr : store r with
          | none =>
            rw [hsr] at hbind
            have h2 : (none : Option (List Nat)) = some o := hbind
            cases h2
          | some c =>
            rw [hsr] at hbind
            have hres2 : bytesResolve store k0 c = some o := hbind
            obtain ⟨N, tr, hN⟩ := ih c _ hres2
            exact ⟨N + 1, tr, rrec0_step store dt r w0 c _ tr N hsr hN⟩
        obtain ⟨N, tr, hN⟩ := emits_seq (storeAcc store) dt own (some w0)
          (fun r => (plainOf store k0 r).getD []) (fullChunks bytes) hstep
        refine ⟨N + 1, tr, fun f hf => ?_⟩
        obtain ⟨f', rfl⟩ : ∃ g, f = g + 1 := ⟨f - 1, by omega⟩
        have hrem : chunkRem bytes = [] :=
          List.length_eq_zero.1 (by rw [chunkRem_length, hlen])
        have hit : itRun [] bytes = ([], fullChunks bytes) := by
          rw [itRun_eq (by simp [DIGEST_SIZE])]
          simp only [List.nil_append]
          rw [hrem]
        have hit1 : (itRun [] bytes).1 = [] := by rw [hit]
        have hit2 : (itRun [] bytes).2 = fullChunks bytes := by rw [hit]
        simp only [runF]
        rw [hit1, hit2, hN f' (by omega), houts]
    · rw [if_neg hlen] at hres
      have h' : (none : Option (List Nat)) = some out := hres
      cases h'

/-- `read_recursively` over a clean stack: the levels of the request and the
height of the stack add up. -/
theorem readRec_clean (store : Store) :
    ∀ (L k : Nat) (w : Wx), CleanS k w →
    ∀ (dt : DataType) (dg out : List Nat),
      plainOf store (L + k) dg = some out →
      ∃ N tr, ∀ f ≥ N, runF (storeAcc store) f (.rrec dt dg L (some w)) =
        some (.ok (some w, out, tr)) := by
  intro L
  induction L with
  | zero =>
    intro k w hclean dt dg out h
    rw [plainOf_eq_bind] at h
    cases hsd : store dg with
    | none =>
      rw [hsd] at h
      have h' : (none : Option (List Nat)) = some out := h
      cases h'
    | some c =>
      rw [hsd] at h
      have hres : bytesResolve store (0 + k) c = some out := h
      obtain ⟨N, tr, hN⟩ := writeW_clean store k w hclean c out
        (by simpa using hres)
      exact ⟨N + 1, tr, rrec0_step store dt dg w c out tr N hsd hN⟩
  | succ L ihL =>
    intro k w hclean dt dg out h
    have hclean' : CleanS (k + 1) (.trans dt [] (some w) (L + 1)) :=
      CleanS.step dt (L + 1) hclean
    obtain ⟨N, tr, hN⟩ := ihL (k + 1) _ hclean' .index dg out
      (by rw [show L + (k + 1) = (L + 1) + k by omega]; exact h)
    refine ⟨N + 1, tr, fun f hf => ?_⟩
    obtain ⟨f', rfl⟩ : ∃ g, f = g + 1 := ⟨f - 1, by omega⟩
    simp only [runF]
    rw [hN f' (by omega)]
    rfl

/-- C1: resolving a root `DataAddress` via `ReadContext::read_recursively`
with an output writer delivers to that writer, for every index tree the
store denotes, exactly the depth-first concatenation — in the order the
digests appear in the index content — of the plaintexts of the tree's leaf
chunks (`plainOf`), hence byte-identical to the object as indexed; the
store is arbitrary, so this covers index chunks containing any number
`N ≥ 0` of digests at every level. -/
theorem read_recursively_roundtrip (store : Store) (dt : DataType)
    (dg : List Nat) (L : Nat) (out : List Nat)
    (h : plainOf store L dg = some out) :
    ∃ N tr, ∀ f ≥ N,
      runF (storeAcc store) f (.rrec dt dg L (some .base)) =
        some (.ok (some .base, out, tr)) :=
  readRec_clean store L 0 .base CleanS.base dt dg out (by simpa using h)

/-- Digests and store for the round-trip witness: a level-1 index chunk
listing two leaves. -/
def dW1 : List Nat := List.replicate DIGEST_SIZE 1

def dW2 : List Nat := List.replicate DIGEST_SIZE 2

def rootW : List Nat := List.replicate DIGEST_SIZE 0

def storeW : Store := fun dg =>
  if dg = rootW then some (dW1 ++ dW2)
  else if dg = dW1 then some [7, 8]
  else if dg = dW2 then some [9] else none

theorem read_recursively_roundtrip_witness :
    plainOf storeW 1 rootW = some [7, 8, 9] ∧
    ∃ N tr, ∀ f ≥ N,
      runF (storeAcc storeW) f (.rrec .data rootW 1 (some .base)) =
        some (.ok (some .base, [7, 8, 9], tr)) :=
  ⟨by decide,
    read_recursively_roundtrip storeW .data rootW 1 [7, 8, 9] (by decide)⟩

/-- A two-level tree: the root (level 2) lists one level-1 index chunk,
which lists one leaf. -/
def rootC4 : List Nat := List.replicate DIGEST_SIZE 0

def midC4 : List Nat := List.replicate DIGEST_SIZE 1

def leafC4 : List Nat := List.replicate DIGEST_SIZE 2

def storeC4 : Store := fun dg =>
  if dg = rootC4 then some midC4
  else if dg = midC4 then some leafC4
  else if dg = leafC4 then some [5] else none

/-- C4 counterexample: resolving the level-2 root, the translator owned by
the level-2 request — the one holding the caller's writer and data type —
emits its completed record at index level 0, not at `2 - 1 = 1` as the
claim states; the source hardcodes `index_level: 0` (reading.rs lines 86
and 100). -/
theorem translator_emission_level_counterexample :
    runF (storeAcc storeC4) 20 (.rrec .data rootC4 2 (some .base)) =
      some (.ok (some .base, [5],
        [⟨1, 0, .index, midC4⟩, ⟨2, 0, .data, leafC4⟩])) ∧
    (⟨2, 0, .data, leafC4⟩ : Emit).passed ≠
      (⟨2, 0, .data, leafC4⟩ : Emit).own - 1 :=
  ⟨rfl, by decide⟩

/-- C4 (amended): every `read_recursively` call an `IndexTranslator` emits
is at index level 0 — which coincides with the owning request's
`index_level - 1` only when that level is 1; descent through higher levels
comes from `on_index` nesting one fresh translator per level.  The emitted
calls do pass the translator's stored data type and writer, which are those
of its owning request. -/
theorem translator_emits_at_level_zero (acc : Accessor) :
    ∀ (f : Nat) (j : Job) (w : Option Wx) (out : List Nat) (tr : List Emit),
      runF acc f j = some (.ok (w, out, tr)) →
      ∀ ev ∈ tr, ev.passed = 0 := by
  intro f
  induction f with
  | zero =>
    intro j w out tr h _ _
    simp [runF] at h
  | succ f ih =>
    intro j w out tr h ev hev
    cases j with
    | rrec dt dg level wj =>
      cases level with
      | zero =>
        cases wj with
        | none =>
          have h' : ((acc.touch dg).map fun _ =>
              ((none : Option Wx), ([] : List Nat), ([] : List Emit))) =
              .ok (w, out, tr) := Option.some.inj h
          cases htch : acc.touch dg with
          | error e =>
            rw [htch] at h'
            exact Except.noConfusion h'
          | ok u =>
            rw [htch] at h'
            have h2 := Except.ok.inj h'
            injection h2 with _ h3
            injection h3 with _ h4
            rw [← h4] at hev
            cases hev
        | some w0 =>
          simp only [runF] at h
          cases hf : acc.fetch dt dg with
          | error e =>
            rw [hf] at h
            exact absurd (Option.some.inj h) (by simp)
          | ok c =>
            rw [hf] at h
            exact ih _ w out tr h ev hev
      | succ level =>
        simp only [runF] at h
        split at h
        · exact absurd h (by simp)
        · rename_i e heq
          exact Except.noConfusion (Option.some.inj h)
        · rename_i w' out' tr' heq
          have hh := Except.ok.inj (Option.some.inj h)
          injection hh with hw hh2
          injection hh2 with ho ht
          rw [← ht] at hev
          exact ih _ _ _ _ heq ev hev
    | wwrite wj bytes =>
      cases wj with
      | base =>
        have h' := Except.ok.inj (Option.some.inj h)
        injection h' with _ h2
        injection h2 with _ h3
        rw [← h3] at hev
        cases hev
      | trans dt buf inner own =>
        simp only [runF] at h
        split at h
        · exact absurd h (by simp)
        · rename_i e heq
          exact Except.noConfusion (Option.some.inj h)
        · rename_i inner' out' tr' heq
          have hh := Except.ok.inj (Option.some.inj h)
          injection hh with hw hh2
          injection hh2 with ho ht
          rw [← ht] at hev
          exact ih _ _ _ _ heq ev hev
    | emits dt own wj recs =>
      cases recs with
      | nil =>
        have h' := Except.ok.inj (Option.some.inj h)
        injection h' with _ h2
        injection h2 with _ h3
        rw [← h3] at hev
        cases hev
      | cons r0 rs =>
        simp only [runF] at h
        split at h
        · exact absurd h (by simp)
        · rename_i e heq
          exact Except.noConfusion (Option.some.inj h)
        · rename_i w' o1 t1 heq
          split at h
          · exact absurd h (by simp)
          · rename_i e heq2
            exact Except.noConfusion (Option.some.inj h)
          · rename_i w'' o2 t2 heq2
            have hh := Except.ok.inj (Option.some.inj h)
            injection hh with hw hh2
            injection hh2 with ho ht
            rw [← ht] at hev
            rcases List.mem_cons.1 hev with rfl | hev2
            · rfl
            · rcases List.mem_append.1 hev2 with h1 | h2
              · exact ih _ _ _ _ heq ev h1
              · exact ih _ _ _ _ heq2 ev h2

theorem translator_emits_at_level_zero_witness :
    runF (storeAcc storeC4) 20 (.rrec .data rootC4 2 (some .base)) =
      some (.ok (some .base, [5],
        [⟨1, 0, .index, midC4⟩, ⟨2, 0, .data, leafC4⟩])) ∧
    ∀ ev ∈ [(⟨1, 0, .index, midC4⟩ : Emit), ⟨2, 0, .data, leafC4⟩],
      ev.passed = 0 :=
  ⟨rfl, translator_emits_at_level_zero (storeAcc storeC4) 20
    (.rrec .data rootC4 2 (some .base)) (some .base) [5]
    [⟨1, 0, .index, midC4⟩, ⟨2, 0, .data, leafC4⟩] rfl⟩

/-- The accessor of the C8 counterexample: every chunk "exists" (`touch`
always succeeds — Default's and the probe's success), but content reads
fail the integrity pipeline (a corrupt chunk). -/
def accC8 : Accessor where
  fetch := fun _ _ => .error ⟨.invalidData, "corrupt"⟩
  touch := fun _ => .ok ()

/-- C8 counterexample: a discard-mode resolution (no writer) of a level-1
root still fails when the index chunk's `read_chunk_into` fails, although
`touch` (existence) succeeds everywhere: index chunks must
decrypt/decompress/verify even with no output writer, contradicting
"does not require decrypt/decompress/verify to succeed for any chunk". -/
theorem discard_mode_counterexample :
    (∀ dg, accC8.touch dg = .ok ()) ∧
    runF accC8 20 (.rrec .data rootC4 1 none) =
      some (.error ⟨.invalidData, "corrupt"⟩) :=
  ⟨fun _ => rfl, rfl⟩

/-- Translator stacks of discard mode: all buffers empty and the innermost
translator wraps `None` (the taken absent writer). -/
inductive CleanN : Nat → Wx → Prop
  | bottom (dt : DataType) (own : Nat) : CleanN 1 (.trans dt [] none own)
  | step {k : Nat} {w : Wx} (dt : DataType) (own : Nat) (h : CleanN k w) :
      CleanN (k + 1) (.trans dt [] (some w) own)

/-- What a discard-mode walk requires of the store: every index chunk
(levels ≥ 1) present with whole-record plaintext; leaves require nothing,
since only `touch` reaches them. -/
def walkOK (store : Store) : Nat → List Nat → Prop
  | 0, _ => True
  | level + 1, dg => ∃ c, store dg = some c ∧
      c.length % DIGEST_SIZE = 0 ∧ ∀ r ∈ fullChunks c, walkOK store level r

theorem writeW_cleanN (store : Store) (k : Nat) (w : Wx)
    (hclean : CleanN k w) :
    ∀ bytes : List Nat, bytes.length % DIGEST_SIZE = 0 →
      (∀ r ∈ fullChunks bytes, walkOK store (k - 1) r) →
      ∃ N tr, ∀ f ≥ N, runF (storeAcc store) f (.wwrite w bytes) =
        some (.ok (some w, [], tr)) := by
  induction hclean with
  | bottom dt own =>
    intro bytes hlen _
    have hstep : ∀ r ∈ fullChunks bytes, ∃ N tr, ∀ f ≥ N,
        runF (storeAcc store) f (.rrec dt r 0 none) =
          some (.ok ((none : Option Wx),
            (fun _ => ([] : List Nat)) r, tr)) := by
      intro r _
      refine ⟨1, [], fun f hf => ?_⟩
      obtain ⟨f', rfl⟩ : ∃ g, f = g + 1 := ⟨f - 1, by omega⟩
      rfl
    obtain ⟨N, tr, hN⟩ := emits_seq (storeAcc store) dt own none
      (fun _ => []) (fullChunks bytes) hstep
    have hflat : ((fullChunks bytes).map fun _ => ([] : List Nat)).flatten
        = [] := by simp
    refine ⟨N + 1, tr, fun f hf => ?_⟩
    obtain ⟨f', rfl⟩ : ∃ g, f = g + 1 := ⟨f - 1, by omega⟩
    have hrem : chunkRem bytes = [] :=
      List.length_eq_zero.1 (by rw [chunkRem_length, hlen])
    have hit : itRun [] bytes = ([], fullChunks bytes) := by
      rw [itRun_eq (by simp [DIGEST_SIZE])]
      simp only [List.nil_append]
      rw [hrem]
    have hit1 : (itRun [] bytes).1 = [] := by rw [hit]
    have hit2 : (itRun [] bytes).2 = fullChunks bytes := by rw [hit]
    simp only [runF]
    rw [hit1, hit2, hN f' (by omega), hflat]
  | step dt own h0 ih =>
    rename_i k0 w0
    intro bytes hlen hwalk
    have hk : ∃ m, k0 = m + 1 := by cases h0 <;> exact ⟨_, rfl⟩
    obtain ⟨m, rfl⟩ := hk
    have hstep : ∀ r ∈ fullChunks bytes, ∃ N tr, ∀ f ≥ N,
        runF (storeAcc store) f (.rrec dt r 0 (some w0)) =
          some (.ok (some w0, (fun _ => ([] : List Nat)) r, tr)) := by
      intro r hr
      obtain ⟨c, hsr, hclen, hsub⟩ := hwalk r hr
      obtain ⟨N, tr, hN⟩ := ih c hclen hsub
      exact ⟨N + 1, tr, rrec0_step store dt r w0 c [] tr N hsr hN⟩
    obtain ⟨N, tr, hN⟩ := emits_seq (storeAcc store) dt own (some w0)
      (fun _ => []) (fullChunks bytes) hstep
    have hflat : ((fullChunks bytes).map fun _ => ([] : List Nat)).flatten
        = [] := by simp
    refine ⟨N + 1, tr, fun f hf => ?_⟩
    obtain ⟨f', rfl⟩ : ∃ g, f = g + 1 := ⟨f - 1, by omega⟩
    have hrem : chunkRem bytes = [] :=
      List.length_eq_zero.1 (by rw [chunkRem_length, hlen])
    have hit : itRun [] bytes = ([], fullChunks bytes) := by
      rw [itRun_eq (by simp [DIGEST_SIZE])]
      simp only [List.nil_append]
      rw [hrem]
    have hit1 : (itRun [] bytes).1 = [] := by rw [hit]
    have hit2 : (itRun [] bytes).2 = fullChunks bytes := by rw [hit]
    simp only [runF]
    rw [hit1, hit2, hN f' (by omega), hflat]

theorem readRec_cleanN (store : Store) :
    ∀ (L k : Nat) (w : Wx), CleanN k w → ∀ (dt : DataType) (dg : List Nat),
      walkOK store (L + k) dg →
      ∃ N tr, ∀ f ≥ N, runF (storeAcc store) f (.rrec dt dg L (some w)) =
        some (.ok (some w, [], tr)) := by
  intro L
  induction L with
  | zero =>
    intro k w hclean dt dg hw
    have hk : ∃ m, k = m + 1 := by cases hclean <;> exact ⟨_, rfl⟩
    obtain ⟨m, rfl⟩ := hk
    have hw' : walkOK store (m + 1) dg := by simpa using hw
    obtain ⟨c, hsd, hclen, hsub⟩ := hw'
    obtain ⟨N, tr, hN⟩ := writeW_cleanN store (m + 1) w hclean c hclen hsub
    exact ⟨N + 1, tr, rrec0_step store dt dg w c [] tr N hsd hN⟩
  | succ L ihL =>
    intro k w hclean dt dg hw
    have hclean' : CleanN (k + 1) (.trans dt [] (some w) (L + 1)) :=
      CleanN.step dt (L + 1) hclean
    obtain ⟨N, tr, hN⟩ := ihL (k + 1) _ hclean' .index dg
      (by rw [show L + (k + 1) = (L + 1) + k by omega]; exact hw)
    refine ⟨N + 1, tr, fun f hf => ?_⟩
    obtain ⟨f', rfl⟩ : ∃ g, f = g + 1 := ⟨f - 1, by omega⟩
    simp only [runF]
    rw [hN f' (by omega)]
    rfl

/-- C8 (amended): with no output writer, `read_recursively` still recurses
through every index level, leaf chunks are only `touch`ed — the result at a
leaf is exactly the `touch` outcome, for every accessor, so no content is
read or verified there — but index chunks are still read through
`read_chunk_into` (decrypt/decompress/verify included), since their
plaintext drives the recursion; when every index chunk resolves (`walkOK`),
the discard-mode walk succeeds and delivers nothing, leaf contents being
entirely unneeded. -/
theorem discard_mode_walk (store : Store) (dt : DataType) (dg : List Nat) :
    (∀ (acc : Accessor) (f : Nat),
      runF acc (f + 1) (.rrec dt dg 0 none) =
        some ((acc.touch dg).map fun _ => (none, [], []))) ∧
    (∀ L, walkOK store L dg →
      ∃ N tr, ∀ f ≥ N, runF (storeAcc store) f (.rrec dt dg L none) =
        some (.ok (none, [], tr))) := by
  constructor
  · intro acc f
    rfl
  · intro L hw
    cases L with
    | zero =>
      refine ⟨1, [], fun f hf => ?_⟩
      obtain ⟨f', rfl⟩ : ∃ g, f = g + 1 := ⟨f - 1, by omega⟩
      rfl
    | succ L =>
      have hclean : CleanN 1 (.trans dt [] none (L + 1)) :=
        CleanN.bottom dt (L + 1)
      obtain ⟨N, tr, hN⟩ := readRec_cleanN store L 1 _ hclean .index dg hw
      refine ⟨N + 1, tr, fun f hf => ?_⟩
      obtain ⟨f', rfl⟩ : ∃ g, f = g + 1 := ⟨f - 1, by omega⟩
      simp only [runF]
      rw [hN f' (by omega)]
      rfl

/-- A two-level store whose leaf chunk is absent: discard mode still
succeeds, demonstrating that leaves need not even exist in the store. -/
def storeD : Store := fun dg =>
  if dg = rootC4 then some midC4
  else if dg = midC4 then some leafC4 else none

theorem discard_mode_walk_witness :
    walkOK storeD 2 rootC4 ∧ storeD leafC4 = none ∧
    ∃ N tr, ∀ f ≥ N, runF (storeAcc storeD) f (.rrec .data rootC4 2 none) =
      some (.ok (none, [], tr)) := by
  have h1 : walkOK storeD 1 midC4 := by
    refine ⟨leafC4, by decide, by decide, fun r _ => ?_⟩
    exact trivial
  have hfc : fullChunks midC4 = [midC4] := by decide
  have hwalk : walkOK storeD 2 rootC4 := by
    refine ⟨midC4, by decide, by decide, fun r hr => ?_⟩
    rw [hfc] at hr
    rcases List.mem_singleton.1 hr with rfl
    exact h1
  exact ⟨hwalk, by decide,
    (discard_mode_walk storeD .data rootC4).2 2 hwalk⟩

end RBackup
